import Mathlib

/-!
A verification development for the OHLCV chart-datafeed module of the
dextrading front-end.  The TypeScript source is shallowly embedded:

* candle timestamps (seconds) are `Int`; prices and volumes are `ℚ`
  (every numeric operation the embedded code performs on them —
  comparison, `Math.max`/`Math.min`, addition, `Math.abs` — is exact on
  the values involved, so `ℚ` is a faithful carrier);
* fallible parsing returns `Option`;
* the `while` loop of `mergeOhlcv` is embedded with an explicit fuel
  equal to the total input length (each iteration of the source loop
  advances at least one cursor, so that fuel is never exhausted);
* JavaScript `Map` insertion-order semantics are embedded as an
  in-place-updated list keyed by the stored bar's `time` field (the
  source always stores the bucket key in that field);
* `Array.prototype.sort` with comparator `a.time - b.time` is embedded
  as `List.insertionSort` on a time-ordering relation (the sorted lists
  involved have pairwise-distinct times, so any comparison sort yields
  the same list).
-/

/-- One OHLCV candle (`IOhlcvData` in the source).  The `open` field is
named `open_` because `open` is a reserved word in Lean. -/
structure Bar where
  time : Int
  open_ : ℚ
  high : ℚ
  low : ℚ
  close : ℚ
  volume : ℚ
  deriving DecidableEq, Repr

/-- Time-based non-strict order on bars, the comparator
`(a, b) => a.time - b.time` used by the source's sort. -/
def barLE (a b : Bar) : Prop := a.time ≤ b.time

instance : DecidableRel barLE := fun a b => (inferInstance : Decidable (a.time ≤ b.time))

instance : IsTotal Bar barLE := ⟨fun a b => le_total a.time b.time⟩

instance : IsTrans Bar barLE := ⟨fun _ _ _ hab hbc => le_trans hab hbc⟩

/-- Strict time order on bars. -/
def timeLt (a b : Bar) : Prop := a.time < b.time

instance : DecidableRel timeLt := fun a b => (inferInstance : Decidable (a.time < b.time))

instance : IsAntisymm Bar timeLt := ⟨fun _ _ h h' => absurd (lt_trans h h') (lt_irrefl _)⟩

instance : Trans timeLt timeLt timeLt := ⟨fun hab hbc => lt_trans hab hbc⟩

/-- Boolean test that the `time` fields of a series are strictly
increasing (hence unique) — the canonical-series invariant. -/
def strictlyAscTimes : List Bar → Bool
  | [] => true
  | [_] => true
  | a :: b :: rest => decide (a.time < b.time) && strictlyAscTimes (b :: rest)

theorem strictlyAscTimes_iff_pairwise (l : List Bar) :
    strictlyAscTimes l = true ↔ List.Pairwise timeLt l := by
  induction l with
  | nil => simp [strictlyAscTimes]
  | cons a t ih =>
    cases t with
    | nil => simp [strictlyAscTimes]
    | cons b rest =>
      rw [strictlyAscTimes]
      rw [Bool.and_eq_true, decide_eq_true_iff, ih]
      constructor
      · rintro ⟨hab, hp⟩
        refine List.Pairwise.cons ?_ hp
        intro x hx
        rcases List.mem_cons.mp hx with h | hx'
        · subst h; exact hab
        · exact lt_trans hab ((List.pairwise_cons.mp hp).1 x hx')
      · intro hp
        rcases List.pairwise_cons.mp hp with ⟨hhead, htail⟩
        exact ⟨hhead b (by simp), htail⟩

/-! ## Three-way merge (`mergeOhlcv`)

The source walks three cursors `i, j, k` over the minute/hour/day
series; a head time is `Infinity` when its cursor is exhausted.  We
embed head times as `Option Int` with `none = Infinity`, together with
the `Math.min` and `===` operations the loop uses. -/

/-- Head time of a series; `none` plays the role of `Infinity`. -/
def headT : List Bar → Option Int
  | [] => none
  | b :: _ => some b.time

/-- `Math.min` for head times (`none` = `Infinity`). -/
def otMin : Option Int → Option Int → Option Int
  | none, b => b
  | some a, none => some a
  | some a, some b => some (min a b)

/-- `===` for head times (`Infinity === Infinity` is `true`). -/
def otEq : Option Int → Option Int → Bool
  | none, none => true
  | some a, some b => decide (a = b)
  | _, _ => false

/-- A placeholder bar; only read behind guards that ensure the list is
non-empty, mirroring the source's guarded `data[cursor]` accesses. -/
def dummyBar : Bar := ⟨0, 0, 0, 0, 0, 0⟩

/-- The body of the source's `while` loop, with fuel.  Each iteration
emits one bar and advances the cursors exactly as the source's
`if`/`else if` chain does. -/
def mergeGo : Nat → List Bar → List Bar → List Bar → List Bar
  | 0, _, _, _ => []
  | Nat.succ fuel, minuteData, hourData, dayData =>
    if minuteData.isEmpty && hourData.isEmpty && dayData.isEmpty then []
    else
      let tMin := headT minuteData
      let tHour := headT hourData
      let tDay := headT dayData
      let minT := otMin (otMin tMin tHour) tDay
      if otEq tMin minT && otEq tHour minT && otEq tDay minT then
        dayData.headD dummyBar :: mergeGo fuel minuteData.tail hourData.tail dayData.tail
      else if otEq tHour minT && otEq tMin minT then
        hourData.headD dummyBar :: mergeGo fuel minuteData.tail hourData.tail dayData
      else if otEq tDay minT && otEq tHour minT then
        dayData.headD dummyBar :: mergeGo fuel minuteData hourData.tail dayData.tail
      else if otEq tDay minT then
        dayData.headD dummyBar :: mergeGo fuel minuteData hourData dayData.tail
      else if otEq tHour minT then
        hourData.headD dummyBar :: mergeGo fuel minuteData hourData.tail dayData
      else
        minuteData.headD dummyBar :: mergeGo fuel minuteData.tail hourData dayData

/-- `mergeOhlcv(minuteData, hourData, dayData)`: the source loop runs at
most `minuteData.length + hourData.length + dayData.length` iterations
(each one advances at least one cursor), so that fuel is exact. -/
def mergeOhlcv (minuteData hourData dayData : List Bar) : List Bar :=
  mergeGo (minuteData.length + hourData.length + dayData.length) minuteData hourData dayData

/-- Concrete minute bar at `time = 10`. -/
def minuteBar10 : Bar := ⟨10, 1, 2, 1, 2, 3⟩

/-- Concrete day bar at the same `time = 10`, with different fields. -/
def dayBar10 : Bar := ⟨10, 5, 6, 4, 5, 7⟩

/-- Concrete minute bar at `time = 20`. -/
def minuteBar20 : Bar := ⟨20, 1, 2, 1, 2, 3⟩

/-- Concrete day bar at the same `time = 20`. -/
def dayBar20 : Bar := ⟨20, 5, 6, 4, 5, 7⟩

/-- C1: the claim says that whenever a timestamp appears in more than
one input series, only the highest-priority bar is emitted there and
the lower-priority duplicates are dropped.  The code violates this when
a timestamp is shared by exactly the day and minute series (hour absent
at that timestamp): the `if`/`else if` chain has no
`tDay === minT && tMin === minT` branch, so only the day cursor
advances and the minute bar is emitted on the next iteration.  On
`minute = [minuteBar10]`, `hour = []`, `day = [dayBar10]` (all three
inputs strictly ascending) the output contains both bars at time 10. -/
theorem mergeOhlcv_day_minute_tie_emits_duplicate :
    mergeOhlcv [minuteBar10] [] [dayBar10] = [dayBar10, minuteBar10] ∧
      minuteBar10 ≠ dayBar10 := by decide

/-- C2: the claim says the merged output is strictly ascending with
unique times whenever the three inputs are.  With
`minute = [minuteBar20]`, `hour = []`, `day = [dayBar20]` (each input
strictly ascending) the output has times `[20, 20]`. -/
theorem mergeOhlcv_output_not_strictly_ascending :
    strictlyAscTimes [minuteBar20] = true ∧
      strictlyAscTimes [] = true ∧
      strictlyAscTimes [dayBar20] = true ∧
      (mergeOhlcv [minuteBar20] [] [dayBar20]).map (fun b => b.time) = [20, 20] ∧
      strictlyAscTimes (mergeOhlcv [minuteBar20] [] [dayBar20]) = false := by decide

/-! ## Resolution table and bucket aggregation (`aggregateBars`) -/

/-- `chartSecondsPerResolution`: the resolution → seconds table.  Every
stored value is non-zero, so the source's `table[resolution] || 300`
is the same as defaulting `none` to `300`. -/
def chartResolutionTable : List (String × Int) :=
  [("10", 10 * 60), ("15", 15 * 60), ("30", 30 * 60), ("60", 60 * 60),
   ("240", 240 * 60), ("480", 480 * 60), ("720", 720 * 60),
   ("1440", 24 * 60 * 60), ("D", 24 * 60 * 60), ("1D", 24 * 60 * 60),
   ("3D", 3 * 24 * 60 * 60), ("W", 7 * 24 * 60 * 60), ("1W", 7 * 24 * 60 * 60),
   ("M", 30 * 24 * 60 * 60), ("1M", 30 * 24 * 60 * 60)]

def chartSecondsPerResolution (r : String) : Option Int :=
  (chartResolutionTable.find? (fun p => decide (p.1 = r))).map (fun p => p.2)

/-- `const intervalSec = chartSecondsPerResolution[resolution] || 300`. -/
def intervalSecondsOf (resolution : String) : Int :=
  (chartSecondsPerResolution resolution).getD 300

theorem chartSecondsPerResolution_pos {r : String} {v : Int}
    (h : chartSecondsPerResolution r = some v) : 0 < v := by
  rw [chartSecondsPerResolution] at h
  cases hf : chartResolutionTable.find? (fun p => decide (p.1 = r)) with
  | none => rw [hf] at h; cases h
  | some p =>
    rw [hf] at h
    have hall : ∀ q ∈ chartResolutionTable, 0 < q.2 := by decide
    have hv : p.2 = v := by simpa using h
    exact hv ▸ hall p (List.mem_of_find?_eq_some hf)

theorem intervalSecondsOf_pos (resolution : String) : 0 < intervalSecondsOf resolution := by
  rw [intervalSecondsOf]
  cases hc : chartSecondsPerResolution resolution with
  | none => norm_num
  | some v => simpa using chartSecondsPerResolution_pos hc

/-- `Math.floor(time / intervalSec) * intervalSec` on integer inputs is
flooring division. -/
def bucketTimeOf (intervalSec t : Int) : Int := t.fdiv intervalSec * intervalSec

/-- The in-place update the source applies to an existing bucket
aggregate: `high = max`, `low = min`, `close` last-write-wins, `volume`
summed; `time` (the bucket key) is untouched. -/
def mergeBar (agg bar : Bar) : Bar :=
  { agg with
    high := max agg.high bar.high
    low := min agg.low bar.low
    close := bar.close
    volume := agg.volume + bar.volume }

/-- One step of the source loop over `rawBars`: `buckets` is the
JavaScript `Map` in insertion order, keyed by each stored bar's `time`
field (which always holds the bucket time). -/
def updateBuckets (bt : Int) (bar : Bar) : List Bar → List Bar
  | [] => [{ bar with time := bt }]
  | agg :: rest =>
    if agg.time = bt then mergeBar agg bar :: rest
    else agg :: updateBuckets bt bar rest

/-- The loop body of `aggregateBars`. -/
def aggStep (intervalSec : Int) (buckets : List Bar) (bar : Bar) : List Bar :=
  updateBuckets (bucketTimeOf intervalSec bar.time) bar buckets

/-- `aggregateBars(rawBars, resolution)`. -/
def aggregateBars (rawBars : List Bar) (resolution : String) : List Bar :=
  List.insertionSort barLE (rawBars.foldl (aggStep (intervalSecondsOf resolution)) [])

/-- Sum of the `volume` fields of a series. -/
def sumVol (l : List Bar) : ℚ := (l.map (fun b => b.volume)).sum

theorem sumVol_cons (b : Bar) (l : List Bar) : sumVol (b :: l) = b.volume + sumVol l := by
  simp [sumVol]

theorem sumVol_updateBuckets (bt : Int) (bar : Bar) (s : List Bar) :
    sumVol (updateBuckets bt bar s) = sumVol s + bar.volume := by
  induction s with
  | nil => simp [updateBuckets, sumVol]
  | cons a rest ih =>
    by_cases h : a.time = bt
    · simp only [updateBuckets, if_pos h, sumVol_cons, mergeBar]
      ring
    · simp only [updateBuckets, if_neg h, sumVol_cons, ih]
      ring

theorem sumVol_foldl_aggStep (I : Int) (l : List Bar) (s : List Bar) :
    sumVol (l.foldl (aggStep I) s) = sumVol s + sumVol l := by
  induction l generalizing s with
  | nil => simp [sumVol]
  | cons b rest ih =>
    rw [List.foldl_cons, ih, aggStep, sumVol_updateBuckets, sumVol_cons]
    ring

theorem sumVol_perm {l₁ l₂ : List Bar} (h : l₁.Perm l₂) : sumVol l₁ = sumVol l₂ := by
  unfold sumVol
  exact (h.map (fun b => b.volume)).sum_eq

/-- C5: aggregation never changes total volume. -/
theorem aggregateBars_preserves_total_volume (rawBars : List Bar) (resolution : String) :
    sumVol (aggregateBars rawBars resolution) = sumVol rawBars := by
  rw [aggregateBars, sumVol_perm (List.perm_insertionSort barLE _),
    sumVol_foldl_aggStep]
  simp [sumVol]

theorem bucketTimeOf_of_dvd {I t : Int} (hI : I ≠ 0) (h : I ∣ t) : bucketTimeOf I t = t := by
  obtain ⟨k, rfl⟩ := h
  rw [bucketTimeOf, Int.mul_fdiv_cancel_left _ hI, mul_comm]

theorem bar_eta_time (b : Bar) : { b with time := b.time } = b := by
  cases b; rfl

theorem updateBuckets_append {bt : Int} (bar : Bar) (s : List Bar)
    (h : bt ∉ s.map (fun b => b.time)) :
    updateBuckets bt bar s = s ++ [{ bar with time := bt }] := by
  induction s with
  | nil => simp [updateBuckets]
  | cons a rest ih =>
    simp only [List.map_cons, List.mem_cons] at h
    push_neg at h
    rw [updateBuckets, if_neg (fun hc => h.1 hc.symm), ih h.2]
    simp

theorem foldl_aggStep_of_aligned (I : Int) (l : List Bar) (s : List Bar)
    (halign : ∀ b ∈ l, bucketTimeOf I b.time = b.time)
    (hnotin : ∀ b ∈ l, b.time ∉ s.map (fun x => x.time))
    (hnodup : (l.map (fun b => b.time)).Nodup) :
    l.foldl (aggStep I) s = s ++ l := by
  induction l generalizing s with
  | nil => simp
  | cons b rest ih =>
    simp only [List.map_cons, List.nodup_cons, List.mem_map] at hnodup
    rw [List.foldl_cons, aggStep, halign b (by simp),
      updateBuckets_append b s (hnotin b (by simp)), bar_eta_time]
    have h1 : ∀ x ∈ rest, bucketTimeOf I x.time = x.time :=
      fun x hx => halign x (List.mem_cons_of_mem _ hx)
    have h2 : ∀ x ∈ rest, x.time ∉ (s ++ [b]).map (fun y => y.time) := by
      intro x hx
      simp only [List.map_append, List.mem_append, List.map_cons, List.map_nil,
        List.mem_singleton]
      push_neg
      refine ⟨hnotin x (List.mem_cons_of_mem _ hx), ?_⟩
      intro hc
      exact hnodup.1 ⟨x, hx, hc⟩
    rw [ih (s ++ [b]) h1 h2 hnodup.2, List.append_assoc, List.singleton_append]

/-- C4: aggregation is idempotent at native resolution: a strictly
ascending series whose times are all multiples of the interval of
`resolution` is returned unchanged. -/
theorem aggregateBars_idempotent_at_native_resolution
    (rawBars : List Bar) (resolution : String)
    (hasc : strictlyAscTimes rawBars = true)
    (hdvd : ∀ b ∈ rawBars, intervalSecondsOf resolution ∣ b.time) :
    aggregateBars rawBars resolution = rawBars := by
  have hpair := (strictlyAscTimes_iff_pairwise _).mp hasc
  have hne : intervalSecondsOf resolution ≠ 0 := ne_of_gt (intervalSecondsOf_pos resolution)
  have hnodup : (rawBars.map (fun b => b.time)).Nodup := by
    refine List.pairwise_map.mpr ?_
    exact hpair.imp (fun h => ne_of_lt h)
  rw [aggregateBars,
    foldl_aggStep_of_aligned _ _ []
      (fun b hb => bucketTimeOf_of_dvd hne (hdvd b hb))
      (by simp) hnodup,
    List.nil_append]
  exact List.Sorted.insertionSort_eq (hpair.imp (fun h => le_of_lt h))

/-- Concrete hour-aligned bars for the C4 witness. -/
def wBar3600 : Bar := ⟨3600, 1, 2, 1, 2, 3⟩

/-- Second concrete hour-aligned bar for the C4 witness. -/
def wBar7200 : Bar := ⟨7200, 2, 3, 1, 3, 4⟩

/-! ## Compare-ticker codec (`buildCompareTicker` / `parseCompareTicker`)

Strings are handled as their character lists.  `splitSeg` is the greedy
left-to-right non-overlapping split on the three-character separator
`" / "`, i.e. `String.prototype.split(" / ")` (including the fact that
splitting the empty string yields one empty segment). -/

/-- Whitespace removed by `String.prototype.trim`. -/
def isJSWhitespace (c : Char) : Bool :=
  c = ' ' || c = '\t' || c = '\n' || c = '\r' || c = '\x0b' || c = '\x0c'

/-- `String.prototype.trim` on character lists. -/
def trimChars (l : List Char) : List Char :=
  ((l.dropWhile isJSWhitespace).reverse.dropWhile isJSWhitespace).reverse

/-- The `" / "` separator. -/
def sepChars : List Char := [' ', '/', ' ']

theorem sepChars_append (y : List Char) : sepChars ++ y = ' ' :: '/' :: ' ' :: y := rfl

/-- `split(" / ")`: scan left to right, close the current segment at
each separator occurrence. -/
def splitSeg (acc : List Char) : List Char → List (List Char)
  | [] => [acc.reverse]
  | ' ' :: '/' :: ' ' :: rest => acc.reverse :: splitSeg [] rest
  | c :: rest => splitSeg (c :: acc) rest

/-- Whether `" / "` occurs anywhere in the list. -/
def containsSep : List Char → Bool
  | [] => false
  | ' ' :: '/' :: ' ' :: _ => true
  | _ :: rest => containsSep rest

/-- Whether the list ends with the two characters `" /"` (the only
shape that lets a separator occurrence straddle a concatenation
boundary on the left). -/
def endsSS (l : List Char) : Bool := decide (l.reverse.take 2 = ['/', ' '])

/-- The decoded result `{ address, network }`. -/
structure ParsedTicker where
  address : String
  network : String
  deriving DecidableEq, Repr

/-- `buildCompareTicker(poolName, network, address)`:
`` `${poolName.trim()} / ${network} / ${address}` ``. -/
def buildCompareTicker (poolName network address : String) : String :=
  String.mk (trimChars poolName.data ++ sepChars ++ network.data ++ sepChars ++ address.data)

/-- `parseCompareTicker(ticker)`: reject blank input, split on `" / "`,
trim every part, require at least 3 parts, read the last two as
`address` / `network`, require a non-empty address of length ≥ 8 and a
non-empty network. -/
def parseCompareTicker (ticker : String) : Option ParsedTicker :=
  if trimChars ticker.data = [] then none
  else if 3 ≤ ((splitSeg [] ticker.data).map trimChars).length then
    if ((splitSeg [] ticker.data).map trimChars).getLastD [] ≠ [] ∧
        8 ≤ (((splitSeg [] ticker.data).map trimChars).getLastD []).length ∧
        ((splitSeg [] ticker.data).map trimChars).getD
          (((splitSeg [] ticker.data).map trimChars).length - 2) [] ≠ [] then
      some ⟨String.mk (((splitSeg [] ticker.data).map trimChars).getLastD []),
            String.mk (((splitSeg [] ticker.data).map trimChars).getD
              (((splitSeg [] ticker.data).map trimChars).length - 2) [])⟩
    else none
  else none

theorem splitSeg_ne_nil (acc l : List Char) : splitSeg acc l ≠ [] := by
  induction acc, l using splitSeg.induct with
  | case1 acc => simp [splitSeg]
  | case2 acc rest ih => simp [splitSeg]
  | case3 acc c rest h ih => rw [splitSeg.eq_3 _ _ _ h]; exact ih

theorem endsSS_cons_of_endsSS (c : Char) {l : List Char} (h : endsSS l = true) :
    endsSS (c :: l) = true := by
  rw [endsSS, decide_eq_true_iff] at h ⊢
  have hlen : 2 ≤ l.reverse.length := by
    by_contra hlt
    push_neg at hlt
    have h2 := congrArg List.length h
    rw [List.length_take] at h2
    simp only [List.length_cons, List.length_nil] at h2
    omega
  rw [List.reverse_cons, List.take_append_of_le_length hlen, h]

theorem endsSS_of_cons_eq_false {c : Char} {l : List Char}
    (h : endsSS (c :: l) = false) : endsSS l = false := by
  by_contra hc
  rw [Bool.not_eq_false] at hc
  rw [endsSS_cons_of_endsSS c hc] at h
  cases h

theorem splitSeg_of_containsSep_eq_false (acc l : List Char) :
    containsSep l = false → splitSeg acc l = [acc.reverse ++ l] := by
  induction acc, l using splitSeg.induct with
  | case1 acc => intro _; simp [splitSeg]
  | case2 acc rest ih => intro h; simp [containsSep] at h
  | case3 acc c rest hcond ih =>
    intro h
    have hrest : containsSep rest = false := by
      rwa [containsSep.eq_3 _ _ hcond] at h
    rw [splitSeg.eq_3 _ _ _ hcond, ih hrest]
    simp

theorem splitSeg_append (acc x y : List Char) :
    endsSS x = false →
      splitSeg acc (x ++ (sepChars ++ y)) = splitSeg acc x ++ splitSeg [] y := by
  induction acc, x using splitSeg.induct with
  | case1 acc =>
    intro _
    rw [List.nil_append, sepChars_append, splitSeg.eq_2, splitSeg.eq_1]
    rfl
  | case2 acc rest ih =>
    intro hx
    have hrest : endsSS rest = false :=
      endsSS_of_cons_eq_false (endsSS_of_cons_eq_false (endsSS_of_cons_eq_false hx))
    rw [List.cons_append, List.cons_append, List.cons_append, splitSeg.eq_2,
      splitSeg.eq_2, ih hrest]
    rfl
  | case3 acc c rest hcond ih =>
    intro hx
    have hcond2 : ∀ (r : List Char), c = ' ' → rest ++ (sepChars ++ y) = '/' :: ' ' :: r → False := by
      intro r hc heq
      cases rest with
      | nil =>
        rw [List.nil_append, sepChars_append] at heq
        simp at heq
      | cons r1 rt =>
        rw [List.cons_append] at heq
        injection heq with heq1 heq2
        cases rt with
        | nil =>
          subst hc
          subst heq1
          simp [endsSS] at hx
        | cons r2 rt2 =>
          rw [List.cons_append] at heq2
          injection heq2 with heq2a heq2b
          exact hcond rt2 hc (by rw [heq1, heq2a])
    rw [List.cons_append, splitSeg.eq_3 _ _ _ hcond2, splitSeg.eq_3 _ _ _ hcond]
    exact ih (endsSS_of_cons_eq_false hx)

theorem trimChars_ne_nil_of_mem {l : List Char} {c : Char} (hc : c ∈ l)
    (hw : isJSWhitespace c = false) : trimChars l ≠ [] := by
  intro h
  rw [trimChars, List.reverse_eq_nil_iff, List.dropWhile_eq_nil_iff] at h
  have hmem : c ∈ l.takeWhile isJSWhitespace ∨ c ∈ l.dropWhile isJSWhitespace := by
    rw [← List.mem_append, List.takeWhile_append_dropWhile]
    exact hc
  rcases hmem with hm | hm
  · rw [List.mem_takeWhile_imp hm] at hw
    cases hw
  · have := h c (List.mem_reverse.mpr hm)
    rw [this] at hw
    cases hw

theorem getD_append_pair (P : List (List Char)) (n a d : List Char) :
    (P ++ [n, a]).getD P.length d = n := by
  induction P with
  | nil => rfl
  | cons p ps ih => rw [List.length_cons, List.cons_append, List.getD_cons_succ]; exact ih

/-- C7 (counterexample to the claim as stated): `network = "bsc /"` is
non-empty, contains no `" / "` substring and has no surrounding
whitespace, `name = "tok"` contains no `" / "` at all, and the address
is 10 characters long — yet decoding the encoded ticker does not
recover `{address, network}`, because the trailing `" /"` of the
network merges with the following separator and shifts the segment
boundaries. -/
theorem parseCompareTicker_roundTrip_counterexample :
    containsSep "tok".data = false ∧
      containsSep "bsc /".data = false ∧
      "bsc /".data ≠ [] ∧
      trimChars "bsc /".data = "bsc /".data ∧
      containsSep "0xABCDEF12".data = false ∧
      8 ≤ "0xABCDEF12".data.length ∧
      trimChars "0xABCDEF12".data = "0xABCDEF12".data ∧
      buildCompareTicker "tok" "bsc /" "0xABCDEF12" = "tok / bsc / / 0xABCDEF12" ∧
      parseCompareTicker (buildCompareTicker "tok" "bsc /" "0xABCDEF12") =
        some ⟨"/ 0xABCDEF12", "bsc"⟩ ∧
      parseCompareTicker (buildCompareTicker "tok" "bsc /" "0xABCDEF12") ≠
        some ⟨"0xABCDEF12", "bsc /"⟩ := by decide

/-- C7 (amended): the round-trip holds for every name whose trimmed
form does not end in `" /"`, every non-empty network with no `" / "`
substring, no trailing `" /"` and no surrounding whitespace, and every
address of length ≥ 8 with no `" / "` substring and no surrounding
whitespace. -/
theorem parseCompareTicker_buildCompareTicker
    (name network address : String)
    (h1 : endsSS (trimChars name.data) = false)
    (h2 : containsSep network.data = false)
    (h3 : endsSS network.data = false)
    (h4 : network.data ≠ [])
    (h5 : trimChars network.data = network.data)
    (h6 : containsSep address.data = false)
    (h7 : 8 ≤ address.data.length)
    (h8 : trimChars address.data = address.data) :
    parseCompareTicker (buildCompareTicker name network address) =
      some ⟨address, network⟩ := by
  have hdata : (buildCompareTicker name network address).data =
      trimChars name.data ++ (sepChars ++ (network.data ++ (sepChars ++ address.data))) := by
    simp [buildCompareTicker, List.append_assoc]
  have hsplit : splitSeg [] (buildCompareTicker name network address).data =
      splitSeg [] (trimChars name.data) ++ [network.data, address.data] := by
    rw [hdata, splitSeg_append [] _ _ h1, splitSeg_append [] _ _ h3,
      splitSeg_of_containsSep_eq_false [] _ h2, splitSeg_of_containsSep_eq_false [] _ h6]
    simp
  have hparts : ((splitSeg [] (buildCompareTicker name network address).data).map trimChars) =
      (splitSeg [] (trimChars name.data)).map trimChars ++ [network.data, address.data] := by
    rw [hsplit, List.map_append]
    simp [h5, h8]
  have hlen1 : 1 ≤ ((splitSeg [] (trimChars name.data)).map trimChars).length := by
    rw [List.length_map]
    exact List.length_pos.mpr (splitSeg_ne_nil [] _)
  have hlenparts : ((splitSeg [] (buildCompareTicker name network address).data).map trimChars).length =
      ((splitSeg [] (trimChars name.data)).map trimChars).length + 2 := by
    rw [hparts, List.length_append]
    rfl
  have hlast : ((splitSeg [] (buildCompareTicker name network address).data).map trimChars).getLastD [] =
      address.data := by
    rw [hparts]
    have hre : (splitSeg [] (trimChars name.data)).map trimChars ++ [network.data, address.data] =
        ((splitSeg [] (trimChars name.data)).map trimChars ++ [network.data]) ++ [address.data] := by
      simp
    rw [hre]
    exact List.getLastD_concat _ _ _
  have hnet : ((splitSeg [] (buildCompareTicker name network address).data).map trimChars).getD
      (((splitSeg [] (buildCompareTicker name network address).data).map trimChars).length - 2) [] =
      network.data := by
    rw [hparts]
    have hl : ((splitSeg [] (trimChars name.data)).map trimChars ++
        [network.data, address.data]).length - 2 =
        ((splitSeg [] (trimChars name.data)).map trimChars).length := by
      simp
    rw [hl]
    exact getD_append_pair _ _ _ _
  have hcond : ((splitSeg [] (buildCompareTicker name network address).data).map trimChars).getLastD [] ≠ [] ∧
      8 ≤ (((splitSeg [] (buildCompareTicker name network address).data).map trimChars).getLastD []).length ∧
      ((splitSeg [] (buildCompareTicker name network address).data).map trimChars).getD
        (((splitSeg [] (buildCompareTicker name network address).data).map trimChars).length - 2) [] ≠ [] := by
    refine ⟨?_, ?_, ?_⟩
    · rw [hlast]
      intro hc
      rw [hc] at h7
      simp at h7
    · rw [hlast]; exact h7
    · rw [hnet]; exact h4
  rw [parseCompareTicker,
    if_neg (trimChars_ne_nil_of_mem
      (show '/' ∈ (buildCompareTicker name network address).data by
        rw [hdata]; simp [sepChars]) rfl),
    if_pos (by rw [hlenparts]; omega),
    if_pos hcond, hlast, hnet]

theorem parseCompareTicker_buildCompareTicker_witness :
    endsSS (trimChars "BIBI / WBNB".data) = false ∧
      containsSep "bsc".data = false ∧
      endsSS "bsc".data = false ∧
      "bsc".data ≠ [] ∧
      trimChars "bsc".data = "bsc".data ∧
      containsSep "0xABCDEF12".data = false ∧
      8 ≤ "0xABCDEF12".data.length ∧
      trimChars "0xABCDEF12".data = "0xABCDEF12".data ∧
      parseCompareTicker (buildCompareTicker "BIBI / WBNB" "bsc" "0xABCDEF12") =
        some ⟨"0xABCDEF12", "bsc"⟩ :=
  ⟨by decide, by decide, by decide, by decide, by decide, by decide, by decide, by decide,
    parseCompareTicker_buildCompareTicker "BIBI / WBNB" "bsc" "0xABCDEF12"
      (by decide) (by decide) (by decide) (by decide) (by decide) (by decide)
      (by decide) (by decide)⟩

/-- The malformed-input categories named by the spec: blank input,
fewer than 3 `" / "`-delimited parts, a trimmed last part (address)
shorter than 8 characters, or an empty trimmed second-to-last part
(network). -/
def malformedTicker (ticker : String) : Prop :=
  trimChars ticker.data = [] ∨
    ((splitSeg [] ticker.data).map trimChars).length < 3 ∨
    (((splitSeg [] ticker.data).map trimChars).getLastD []).length < 8 ∨
    ((splitSeg [] ticker.data).map trimChars).getD
      (((splitSeg [] ticker.data).map trimChars).length - 2) [] = []

/-- C8: `parseCompareTicker` (a total function) returns `none` exactly
on the malformed inputs listed by the spec, and an
`{address, network}` value on every other input. -/
theorem parseCompareTicker_eq_none_iff (ticker : String) :
    parseCompareTicker ticker = none ↔ malformedTicker ticker := by
  rw [parseCompareTicker, malformedTicker]
  by_cases htrim : trimChars ticker.data = []
  · rw [if_pos htrim]
    simp [htrim]
  · rw [if_neg htrim]
    by_cases hlen : 3 ≤ ((splitSeg [] ticker.data).map trimChars).length
    · rw [if_pos hlen]
      by_cases hcond : ((splitSeg [] ticker.data).map trimChars).getLastD [] ≠ [] ∧
          8 ≤ (((splitSeg [] ticker.data).map trimChars).getLastD []).length ∧
          ((splitSeg [] ticker.data).map trimChars).getD
            (((splitSeg [] ticker.data).map trimChars).length - 2) [] ≠ []
      · rw [if_pos hcond]
        constructor
        · intro hc
          exact absurd hc (Option.some_ne_none _)
        · rintro (hc | hc | hc | hc)
          · exact absurd hc htrim
          · exact absurd hc (by omega)
          · exact absurd hcond.2.1 (by omega)
          · exact absurd hc hcond.2.2
      · rw [if_neg hcond]
        constructor
        · intro _
          push_neg at hcond
          by_cases ha : (((splitSeg [] ticker.data).map trimChars).getLastD []).length < 8
          · exact Or.inr (Or.inr (Or.inl ha))
          · push_neg at ha
            have hne : ((splitSeg [] ticker.data).map trimChars).getLastD [] ≠ [] := by
              intro hc
              rw [hc] at ha
              simp at ha
            exact Or.inr (Or.inr (Or.inr (hcond hne ha)))
        · intro _
          rfl
    · rw [if_neg hlen]
      constructor
      · intro _
        exact Or.inr (Or.inl (by omega))
      · intro _
        rfl

/-! ## Price formatter (`formatCryptoPrice`)

A JavaScript number is embedded as `NaN`, `±Infinity`, or a finite
IEEE-754 double carried as its exact rational value.  Every numeric
operation the formatter performs on a finite input — `Math.abs`,
comparisons, `toFixed` — is exact on the represented value, and the
magnitude thresholds `0.001` and `0.1` can be compared as the exact
rationals `1/1000` and `1/10` because no double lies strictly between
either rational and the double literal the source compares against. -/

inductive JSNumber where
  | nan
  | posInf
  | negInf
  | num (q : ℚ)
  deriving DecidableEq, Repr

/-- `SUBSCRIPT_DIGITS[c] ?? c`. -/
def subscriptDigit (c : Char) : Char :=
  if c = '0' then '₀' else if c = '1' then '₁' else if c = '2' then '₂'
  else if c = '3' then '₃' else if c = '4' then '₄' else if c = '5' then '₅'
  else if c = '6' then '₆' else if c = '7' then '₇' else if c = '8' then '₈'
  else if c = '9' then '₉' else c

/-- `toSubscript(n)` on the non-negative integers it is called with. -/
def toSubscript (n : Nat) : List Char := (Nat.toDigits 10 n).map subscriptDigit

/-- `x.toFixed(f)` for `0 ≤ x < 10^21`, `1 ≤ f`: round `x·10^f` to the
nearest integer (ties upward, per the ECMA `toFixed` algorithm) and
print with exactly `f` fraction digits. -/
def toFixedChars (x : ℚ) (f : Nat) : List Char :=
  let m := (Rat.floor (x * (10 : ℚ) ^ f + 1 / 2)).toNat
  Nat.toDigits 10 (m / 10 ^ f) ++
    '.' :: (List.replicate (f - (Nat.toDigits 10 (m % 10 ^ f)).length) '0' ++
      Nat.toDigits 10 (m % 10 ^ f))

/-- `fixedStr.split(".")[1] ?? ""` (a `toFixed` result has exactly one
dot): the characters after the first `'.'`. -/
def afterDecimalOf (l : List Char) : List Char :=
  (l.dropWhile (fun c => !(decide (c = '.')))).drop 1

/-- `replace(/0+$/, "")`. -/
def dropTrailingZeros (l : List Char) : List Char :=
  (l.reverse.dropWhile (fun c => decide (c = '0'))).reverse

/-- `replace(/\.?0+$/, "")`: when the string ends in a zero, strip the
maximal trailing-zero run and a dot immediately preceding it. -/
def stripDotZeros (l : List Char) : List Char :=
  if l.getLastD ' ' = '0' then
    if (dropTrailingZeros l).getLastD ' ' = '.' then (dropTrailingZeros l).dropLast
    else dropTrailingZeros l
  else l

/-- `formatCryptoPrice(price, signPositive)`. -/
def formatCryptoPrice (price : JSNumber) (signPositive : Bool) : String :=
  match price with
  | .nan => "0"
  | .posInf => "0"
  | .negInf => "0"
  | .num q =>
    let sign := if signPositive && decide (0 < q) then "+" else ""
    let negSign := if q < 0 then "-" else ""
    let absPrice := if q < 0 then -q else q
    if absPrice = 0 then sign ++ "0"
    else if 1 / 1000 ≤ absPrice then
      let decimals : Nat :=
        if 1000 ≤ absPrice then 2
        else if 1 ≤ absPrice then 4
        else if 1 / 10 ≤ absPrice then 5
        else 6
      sign ++ negSign ++ String.mk (stripDotZeros (toFixedChars absPrice decimals))
    else
      let afterDecimal := afterDecimalOf (toFixedChars absPrice 20)
      let leadingZeros := (afterDecimal.takeWhile (fun c => decide (c = '0'))).length
      let sigDigits := dropTrailingZeros ((afterDecimal.drop leadingZeros).take 4)
      let significandRaw := if sigDigits = [] then ['0'] else sigDigits
      if 3 < leadingZeros then
        sign ++ negSign ++ "0.0" ++ String.mk (toSubscript leadingZeros) ++
          String.mk significandRaw
      else
        sign ++ negSign ++ String.mk (stripDotZeros (toFixedChars absPrice (leadingZeros + 4)))

/-- `formatChange(current, prev, signPositive)` of the formatter
factory: formats the difference with `signPositive ?? true`. -/
def formatChange (currentPrice prevPrice : ℚ) (signPositive : Option Bool) : String :=
  formatCryptoPrice (.num (currentPrice - prevPrice)) (signPositive.getD true)

/-- The exact rational value of the IEEE-754 double nearest to the
literal `0.000000942`, namely `2224234613431603 / 2^71`. -/
def double942e9 : ℚ := mkRat 2224234613431603 2361183241434822606848

/-- The exact rational value of the IEEE-754 double nearest to the
literal `0.05`, namely `3602879701896397 / 2^56`. -/
def double005 : ℚ := mkRat 3602879701896397 72057594037927936

/-- C6: the formatter boundary contract — non-finite and `NaN` inputs
and zero display `"0"`; `-0.05` renders `"-0.05"` with a leading `"-"`
and no `"+"` whatever `signPositive` is; `1234.5` renders `"1234.5"`;
`0.000000942` renders `"0.0₆942"` (subscript 6 for the six leading
zeros, then the significant digits 942). -/
theorem formatCryptoPrice_boundary :
    formatCryptoPrice .nan false = "0" ∧
      formatCryptoPrice .nan true = "0" ∧
      formatCryptoPrice .posInf true = "0" ∧
      formatCryptoPrice .posInf false = "0" ∧
      formatCryptoPrice .negInf true = "0" ∧
      formatCryptoPrice (.num 0) false = "0" ∧
      formatCryptoPrice (.num 0) true = "0" ∧
      formatCryptoPrice (.num (-double005)) true = "-0.05" ∧
      formatCryptoPrice (.num (-double005)) false = "-0.05" ∧
      formatCryptoPrice (.num (mkRat 2469 2)) false = "1234.5" ∧
      formatCryptoPrice (.num double942e9) false = "0.0" ++ "₆" ++ "942" := by
  with_unfolding_all decide

/-! ## `getBars`: source selection, range filter, ms conversion, noData -/

/-- `periodParams` of a `getBars` request (`from`/`to` in seconds;
named `fromTime`/`toTime` here because `from` is reserved in Lean). -/
structure PeriodParams where
  fromTime : Int
  toTime : Int
  deriving DecidableEq, Repr

/-- The tail shared by both `getBars` paths (the non-compare branch and
`serveFromCache`): aggregate the source series at the requested
resolution, keep the bars with `time` in `[from, to]`, convert their
times to milliseconds, and set `noData` exactly when no bar survived
and the range ends before the first aggregated bar (or there is none). -/
def getBarsCompute (sourceData : List Bar) (resolution : String) (pp : PeriodParams) :
    List Bar × Bool :=
  let aggregated := aggregateBars sourceData resolution
  let bars := (aggregated.filter
      (fun b => decide (pp.fromTime ≤ b.time) && decide (b.time ≤ pp.toTime))).map
    (fun b => { b with time := b.time * 1000 })
  let firstBarTime : Option Int := aggregated.head?.map (fun b => b.time)
  let noData := bars.isEmpty &&
    (match firstBarTime with
     | none => true
     | some t => decide (pp.toTime < t))
  (bars, noData)

/-- C9: the returned bars are exactly the aggregated bars with time in
`[from, to]`, with time scaled ×1000 at this boundary; `noData` is true
iff the result is empty and either the aggregated series is empty or
the range ends strictly before its first bar; an empty canonical series
yields `([], noData = true)` for every `periodParams`. -/
theorem getBars_range_ms_noData (sourceData : List Bar) (resolution : String)
    (pp : PeriodParams) :
    (getBarsCompute sourceData resolution pp).1 =
        ((aggregateBars sourceData resolution).filter
          (fun b => decide (pp.fromTime ≤ b.time ∧ b.time ≤ pp.toTime))).map
          (fun b => { b with time := b.time * 1000 }) ∧
      ((getBarsCompute sourceData resolution pp).2 = true ↔
        ((getBarsCompute sourceData resolution pp).1 = [] ∧
          (aggregateBars sourceData resolution = [] ∨
            Option.elim (aggregateBars sourceData resolution).head? False
              (fun a => pp.toTime < a.time)))) ∧
      getBarsCompute [] resolution pp = ([], true) := by
  refine ⟨?_, ?_, ?_⟩
  · simp only [getBarsCompute]
    congr 1
    apply List.filter_congr
    intro b _
    simp [Bool.and_comm]
  · rw [getBarsCompute]
    cases hh : (aggregateBars sourceData resolution).head? with
    | none =>
      have : aggregateBars sourceData resolution = [] := List.head?_eq_none_iff.mp hh
      simp [this]
    | some a =>
      have : aggregateBars sourceData resolution ≠ [] := by
        intro hc
        rw [hc] at hh
        cases hh
      simp only [hh, Option.map_some', Option.elim, Bool.and_eq_true, List.isEmpty_iff,
        decide_eq_true_eq]
      constructor
      · rintro ⟨h1, h2⟩
        exact ⟨h1, Or.inr h2⟩
      · rintro ⟨h1, h2 | h2⟩
        · exact absurd h2 this
        · exact ⟨h1, h2⟩
  · rfl

/-- The daily / weekly / monthly resolution codes. -/
def DAILY_RESOLUTIONS : List String := ["1440", "D", "1D", "3D", "W", "1W", "M", "1M"]

/-- Maximal leading decimal-digit run, `none` when there is none. -/
def parseDigits (l : List Char) : Option Nat :=
  let ds := l.takeWhile (fun c => c.isDigit)
  if ds = [] then none
  else some (ds.foldl (fun acc c => 10 * acc + (c.toNat - '0'.toNat)) 0)

/-- `parseInt(s)` in base 10 as the source uses it: skip leading
whitespace, optional sign, maximal digit prefix; `none` models `NaN`
(and `NaN >= 60` is `false`). -/
def jsParseInt (s : String) : Option Int :=
  match s.data.dropWhile isJSWhitespace with
  | '-' :: rest => (parseDigits rest).map (fun n => -(n : Int))
  | '+' :: rest => (parseDigits rest).map (fun n => (n : Int))
  | l => (parseDigits l).map (fun n => (n : Int))

/-- The `sourceData` selection of the non-compare `getBars` branch:
daily resolutions use `dayData`; hour-based resolutions (parsed minute
count ≥ 60) stitch the day bars strictly before the first hour bar onto
the hour series when both are non-empty; otherwise fall back as the
source does. -/
def selectSourceData (resolution : String) (minuteData hourData dayData : List Bar) :
    List Bar :=
  if DAILY_RESOLUTIONS.contains resolution then dayData
  else if (match jsParseInt resolution with
           | some n => decide (60 ≤ n)
           | none => false) then
    if 0 < hourData.length && 0 < dayData.length then
      dayData.filter (fun b => decide (b.time < (hourData.headD dummyBar).time)) ++ hourData
    else if 0 < hourData.length then hourData else dayData
  else if 0 < minuteData.length then minuteData else hourData

/-- C10: for a non-daily resolution parsing to ≥ 60 minutes with both
hour and day series non-empty, the selected source is the day bars
strictly before the first hour time followed by all hour bars, and it
is strictly ascending whenever both inputs are. -/
theorem selectSourceData_hourly_stitch (resolution : String) (n : Int)
    (minuteData dayData : List Bar) (hb : Bar) (ht : List Bar)
    (hres : DAILY_RESOLUTIONS.contains resolution = false)
    (hparse : jsParseInt resolution = some n)
    (hn : 60 ≤ n)
    (hday_ne : dayData ≠ [])
    (hday : strictlyAscTimes dayData = true)
    (hhour : strictlyAscTimes (hb :: ht) = true) :
    selectSourceData resolution minuteData (hb :: ht) dayData =
        dayData.filter (fun b => decide (b.time < hb.time)) ++ (hb :: ht) ∧
      strictlyAscTimes
        (dayData.filter (fun b => decide (b.time < hb.time)) ++ (hb :: ht)) = true := by
  constructor
  · rw [selectSourceData, if_neg (by rw [hres]; simp),
      if_pos (by rw [hparse]; simpa using hn),
      if_pos (by
        rw [Bool.and_eq_true]
        exact ⟨by simp, by simpa [List.length_pos] using hday_ne⟩)]
    rfl
  · rw [strictlyAscTimes_iff_pairwise] at hday hhour ⊢
    rw [List.pairwise_append]
    refine ⟨hday.filter _, hhour, ?_⟩
    intro a ha b hbmem
    have haf := List.mem_filter.mp ha
    have halt : a.time < hb.time := by simpa using haf.2
    rcases List.mem_cons.mp hbmem with rfl | hbmem'
    · exact halt
    · exact lt_trans halt ((List.pairwise_cons.mp hhour).1 b hbmem')

/-- Concrete old day bar for the C10 witness. -/
def wDay50 : Bar := ⟨50, 1, 2, 1, 2, 3⟩

/-- Concrete recent day bar for the C10 witness. -/
def wDay150 : Bar := ⟨150, 1, 2, 1, 2, 3⟩

/-- Concrete hour bar for the C10 witness. -/
def wHour100 : Bar := ⟨100, 1, 2, 1, 2, 3⟩

theorem selectSourceData_hourly_stitch_witness :
    DAILY_RESOLUTIONS.contains "240" = false ∧
      jsParseInt "240" = some 240 ∧
      (60 : Int) ≤ 240 ∧
      ([wDay50, wDay150] : List Bar) ≠ [] ∧
      strictlyAscTimes [wDay50, wDay150] = true ∧
      strictlyAscTimes [wHour100] = true ∧
      (selectSourceData "240" [] [wHour100] [wDay50, wDay150] =
          [wDay50, wDay150].filter (fun b => decide (b.time < wHour100.time)) ++ [wHour100] ∧
        strictlyAscTimes ([wDay50, wDay150].filter
          (fun b => decide (b.time < wHour100.time)) ++ [wHour100]) = true) :=
  ⟨by decide, by decide, by decide, by decide, by decide, by decide,
    selectSourceData_hourly_stitch "240" 240 [] [wDay50, wDay150] wHour100 []
      (by decide) (by decide) (by decide) (by decide) (by decide) (by decide)⟩

/-! ## Full functional characterization of `aggregateBars` (C3)

A reference pipeline written from the spec's description — group by
`bucketTime`, seed from the first bar of each bucket, fold the rest,
one bar per non-empty bucket sorted ascending — and a proof that the
embedded `aggregateBars` computes exactly it. -/

/-- Reference per-bucket combination, spelled field-by-field from the
spec: `high = max(high, bar.high)`, `low = min(low, bar.low)`,
`close = bar.close` (last write wins), `volume += bar.volume`. -/
def specCombine (agg bar : Bar) : Bar :=
  { time := agg.time, open_ := agg.open_, high := max agg.high bar.high,
    low := min agg.low bar.low, close := bar.close,
    volume := agg.volume + bar.volume }

theorem specCombine_eq_mergeBar : specCombine = mergeBar := rfl

/-- Reference bucket aggregate: seed with the first bar of the bucket
at `time = bt`, fold the remaining bars in input order. -/
def specBucketFold (bt : Int) : List Bar → Option Bar
  | [] => none
  | b :: rest => some (rest.foldl specCombine { b with time := bt })

/-- Reference aggregation: one bar per non-empty bucket, buckets read
off by `bucketTime = floor(time / intervalSeconds) * intervalSeconds`
with `intervalSeconds` from the resolution table (default 300), output
sorted ascending by bucket time. -/
def specAggregate (rawBars : List Bar) (resolution : String) : List Bar :=
  let I := intervalSecondsOf resolution
  (List.insertionSort (fun a b : Int => a ≤ b)
      ((rawBars.map (fun b => bucketTimeOf I b.time)).dedup)).filterMap
    (fun t => specBucketFold t (rawBars.filter (fun b => decide (bucketTimeOf I b.time = t))))

theorem time_mergeBar (agg bar : Bar) : (mergeBar agg bar).time = agg.time := rfl

theorem find?_updateBuckets (t k : Int) (bar : Bar) (s : List Bar) :
    (updateBuckets k bar s).find? (fun b => decide (b.time = t)) =
      if k = t then
        match s.find? (fun b => decide (b.time = t)) with
        | some a => some (mergeBar a bar)
        | none => some { bar with time := k }
      else s.find? (fun b => decide (b.time = t)) := by
  induction s with
  | nil =>
    by_cases hk : k = t
    · rw [updateBuckets, List.find?_cons_of_pos _ (by simpa using hk), if_pos hk,
        List.find?_nil]
    · rw [updateBuckets, List.find?_cons_of_neg _ (by simpa using hk), if_neg hk]
  | cons a rest ih =>
    rw [updateBuckets]
    by_cases ha : a.time = k
    · rw [if_pos ha]
      by_cases hk : k = t
      · rw [List.find?_cons_of_pos _ (by simp [time_mergeBar, ha, hk]), if_pos hk,
          List.find?_cons_of_pos _ (by simp [ha, hk])]
      · rw [List.find?_cons_of_neg _ (by simp [time_mergeBar, ha, hk]), if_neg hk,
          List.find?_cons_of_neg _ (by simp [ha, hk])]
    · rw [if_neg ha]
      by_cases hat : a.time = t
      · have hk : ¬ k = t := fun hc => ha (hat.trans hc.symm)
        rw [List.find?_cons_of_pos _ (by simpa using hat), if_neg hk,
          List.find?_cons_of_pos _ (by simpa using hat)]
      · rw [List.find?_cons_of_neg _ (by simpa using hat), ih,
          List.find?_cons_of_neg _ (by simpa using hat)]

theorem find?_foldl_aggStep (I : Int) (l : List Bar) (t : Int) :
    ∀ s : List Bar,
      (l.foldl (aggStep I) s).find? (fun b => decide (b.time = t)) =
        match s.find? (fun b => decide (b.time = t)) with
        | some a =>
            some ((l.filter (fun b => decide (bucketTimeOf I b.time = t))).foldl mergeBar a)
        | none => specBucketFold t (l.filter (fun b => decide (bucketTimeOf I b.time = t))) := by
  induction l with
  | nil =>
    intro s
    cases hf : s.find? (fun b => decide (b.time = t)) <;>
      simp [hf, specBucketFold]
  | cons b rest ih =>
    intro s
    rw [List.foldl_cons, ih (aggStep I s b), aggStep, find?_updateBuckets]
    by_cases hk : bucketTimeOf I b.time = t
    · rw [if_pos hk, List.filter_cons_of_pos (by simpa using hk)]
      cases hf : s.find? (fun b => decide (b.time = t)) with
      | some a => simp only [hf, List.foldl_cons]
      | none =>
        simp only [hf, specBucketFold, hk, specCombine_eq_mergeBar]
    · rw [if_neg hk, List.filter_cons_of_neg (by simpa using hk)]

theorem map_time_updateBuckets (k : Int) (bar : Bar) (s : List Bar) :
    (updateBuckets k bar s).map (fun b => b.time) =
      if k ∈ s.map (fun b => b.time) then s.map (fun b => b.time)
      else s.map (fun b => b.time) ++ [k] := by
  induction s with
  | nil => simp [updateBuckets]
  | cons a rest ih =>
    rw [updateBuckets]
    by_cases ha : a.time = k
    · rw [if_pos ha]
      simp only [List.map_cons, time_mergeBar, List.mem_cons]
      rw [if_pos (Or.inl ha.symm)]
    · rw [if_neg ha]
      simp only [List.map_cons, ih, List.mem_cons]
      by_cases hk : k ∈ rest.map (fun b => b.time)
      · rw [if_pos hk, if_pos (Or.inr hk)]
      · rw [if_neg hk, if_neg (fun h => h.elim (fun hc => ha hc.symm) hk)]
        simp

theorem nodup_map_time_foldl (I : Int) (l : List Bar) :
    ∀ s : List Bar, (s.map (fun b => b.time)).Nodup →
      ((l.foldl (aggStep I) s).map (fun b => b.time)).Nodup := by
  induction l with
  | nil => intro s h; simpa using h
  | cons b rest ih =>
    intro s h
    rw [List.foldl_cons]
    refine ih _ ?_
    rw [aggStep, map_time_updateBuckets]
    by_cases hk : bucketTimeOf I b.time ∈ s.map (fun x => x.time)
    · rw [if_pos hk]; exact h
    · rw [if_neg hk, List.nodup_append]
      exact ⟨h, List.nodup_singleton _, fun a ha hb =>
        hk (by rwa [List.mem_singleton.mp hb] at ha)⟩

theorem mem_map_time_foldl (I : Int) (l : List Bar) (t : Int) :
    t ∈ (l.foldl (aggStep I) []).map (fun b => b.time) ↔
      t ∈ l.map (fun b => bucketTimeOf I b.time) := by
  have h := find?_foldl_aggStep I l t []
  simp only [List.find?_nil] at h
  rw [List.mem_map, List.mem_map]
  constructor
  · rintro ⟨a, haS, rfl⟩
    have hne : (l.foldl (aggStep I) []).find? (fun b => decide (b.time = a.time)) ≠ none := by
      intro hn
      have := List.find?_eq_none.mp hn a haS
      simp at this
    rw [h] at hne
    cases hfil : l.filter (fun b => decide (bucketTimeOf I b.time = a.time)) with
    | nil => rw [hfil] at hne; exact absurd rfl hne
    | cons x xs =>
      have hx := List.mem_filter.mp (hfil ▸ List.mem_cons_self x xs)
      exact ⟨x, hx.1, by simpa using hx.2⟩
  · rintro ⟨b, hbl, rfl⟩
    have hbf : b ∈ l.filter (fun x => decide (bucketTimeOf I x.time = bucketTimeOf I b.time)) :=
      List.mem_filter.mpr ⟨hbl, by simp⟩
    cases hfil : l.filter (fun x => decide (bucketTimeOf I x.time = bucketTimeOf I b.time)) with
    | nil => rw [hfil] at hbf; cases hbf
    | cons x xs =>
      have hfind : (l.foldl (aggStep I) []).find?
          (fun y => decide (y.time = bucketTimeOf I b.time)) =
          some (xs.foldl specCombine { x with time := bucketTimeOf I b.time }) := by
        rw [h, hfil]; rfl
      refine ⟨_, List.mem_of_find?_eq_some hfind, ?_⟩
      simpa using List.find?_some hfind

theorem filterMap_find?_self :
    ∀ S : List Bar, (S.map (fun b => b.time)).Nodup →
      (S.map (fun b => b.time)).filterMap
        (fun t => S.find? (fun b => decide (b.time = t))) = S := by
  intro S
  induction S with
  | nil => intro _; rfl
  | cons a S' ih =>
    intro h
    simp only [List.map_cons, List.nodup_cons, List.mem_map] at h
    have hfa : (a :: S').find? (fun b => decide (b.time = a.time)) = some a :=
      List.find?_cons_of_pos _ (by simp)
    rw [List.map_cons, List.filterMap_cons, hfa]
    have hcong : ∀ t ∈ S'.map (fun b => b.time),
        (a :: S').find? (fun b => decide (b.time = t)) =
          S'.find? (fun b => decide (b.time = t)) := by
      intro t ht
      rcases List.mem_map.mp ht with ⟨x, hx, rfl⟩
      refine List.find?_cons_of_neg _ ?_
      simp only [decide_eq_true_eq]
      exact fun hc => h.1 ⟨x, hx, hc.symm⟩
    rw [List.filterMap_congr hcong, ih (by
      refine List.pairwise_map.mpr ?_
      have := List.pairwise_map.mp h.2
      exact this)]

theorem pairwise_timeLt_of_barLE_ne :
    ∀ {l : List Bar}, l.Pairwise barLE →
      l.Pairwise (fun a b => a.time ≠ b.time) → l.Pairwise timeLt := by
  intro l
  induction l with
  | nil => intro _ _; exact List.Pairwise.nil
  | cons a t ih =>
    intro hle hne
    rw [List.pairwise_cons] at hle hne
    exact List.Pairwise.cons
      (fun b hb => lt_of_le_of_ne (hle.1 b hb) (hne.1 b hb)) (ih hle.2 hne.2)

theorem pairwise_int_lt_of_le_nodup :
    ∀ {l : List Int}, l.Pairwise (fun a b : Int => a ≤ b) → l.Nodup →
      l.Pairwise (fun a b : Int => a < b) := by
  intro l
  induction l with
  | nil => intro _ _; exact List.Pairwise.nil
  | cons a t ih =>
    intro hle hnd
    rw [List.pairwise_cons] at hle
    rw [List.nodup_cons] at hnd
    refine List.Pairwise.cons (fun b hb => lt_of_le_of_ne (hle.1 b hb) ?_) (ih hle.2 hnd.2)
    intro hc
    exact hnd.1 (by rw [hc]; exact hb)

theorem pairwise_timeLt_filterMap {f : Int → Option Bar} :
    ∀ {ts : List Int}, ts.Pairwise (fun a b : Int => a < b) →
      (∀ t a, f t = some a → a.time = t) →
      (ts.filterMap f).Pairwise timeLt := by
  intro ts
  induction ts with
  | nil => intro _ _; simp
  | cons t ts' ih =>
    intro hp hf
    rw [List.pairwise_cons] at hp
    cases hft : f t with
    | none => simp only [List.filterMap_cons, hft]; exact ih hp.2 hf
    | some a =>
      simp only [List.filterMap_cons, hft]
      refine List.Pairwise.cons ?_ (ih hp.2 hf)
      intro b hb
      rcases List.mem_filterMap.mp hb with ⟨u, hu, hfu⟩
      show b.time > a.time
      rw [hf u b hfu, hf t a hft]
      exact hp.1 u hu

/-- C3: `aggregateBars` equals the reference pipeline read from the
spec — interval from the table (default 300), bars grouped by
`bucketTime = floor(time/intervalSeconds) * intervalSeconds`,
each bucket seeded from its first bar at `time = bucketTime` and folded
with `max`/`min`/last-`close`/summed-`volume` in input order, one bar
per non-empty bucket, ascending by bucket time. -/
theorem aggregateBars_eq_specAggregate (rawBars : List Bar) (resolution : String) :
    aggregateBars rawBars resolution = specAggregate rawBars resolution := by
  rw [aggregateBars, specAggregate]
  have hSnodup : ((rawBars.foldl (aggStep (intervalSecondsOf resolution)) []).map
      (fun b => b.time)).Nodup :=
    nodup_map_time_foldl _ rawBars [] (by simp)
  have hKperm : List.Perm
      (rawBars.map (fun b => bucketTimeOf (intervalSecondsOf resolution) b.time)).dedup
      ((rawBars.foldl (aggStep (intervalSecondsOf resolution)) []).map (fun b => b.time)) := by
    rw [List.perm_ext_iff_of_nodup (List.nodup_dedup _) hSnodup]
    intro t
    rw [List.mem_dedup]
    exact (mem_map_time_foldl _ rawBars t).symm
  have hts_perm : List.Perm
      (List.insertionSort (fun a b : Int => a ≤ b)
        (rawBars.map (fun b => bucketTimeOf (intervalSecondsOf resolution) b.time)).dedup)
      ((rawBars.foldl (aggStep (intervalSecondsOf resolution)) []).map (fun b => b.time)) :=
    (List.perm_insertionSort _ _).trans hKperm
  have hfun : ∀ t : Int,
      specBucketFold t (rawBars.filter
          (fun b => decide (bucketTimeOf (intervalSecondsOf resolution) b.time = t))) =
        (rawBars.foldl (aggStep (intervalSecondsOf resolution)) []).find?
          (fun b => decide (b.time = t)) := by
    intro t
    have h := find?_foldl_aggStep (intervalSecondsOf resolution) rawBars t []
    simp only [List.find?_nil] at h
    exact h.symm
  have hRHSperm : List.Perm
      ((List.insertionSort (fun a b : Int => a ≤ b)
          (rawBars.map (fun b => bucketTimeOf (intervalSecondsOf resolution) b.time)).dedup).filterMap
        (fun t => specBucketFold t (rawBars.filter
          (fun b => decide (bucketTimeOf (intervalSecondsOf resolution) b.time = t)))))
      (rawBars.foldl (aggStep (intervalSecondsOf resolution)) []) := by
    rw [List.filterMap_congr (fun t _ => hfun t)]
    have h1 := List.Perm.filterMap
      (fun t => (rawBars.foldl (aggStep (intervalSecondsOf resolution)) []).find?
        (fun b => decide (b.time = t))) hts_perm
    rw [filterMap_find?_self _ hSnodup] at h1
    exact h1
  refine @List.eq_of_perm_of_sorted Bar timeLt _ _ _
    ((List.perm_insertionSort barLE _).trans hRHSperm.symm) ?_ ?_
  · have hle : (List.insertionSort barLE
        (rawBars.foldl (aggStep (intervalSecondsOf resolution)) [])).Pairwise barLE :=
      List.sorted_insertionSort barLE _
    have hnd : ((List.insertionSort barLE
        (rawBars.foldl (aggStep (intervalSecondsOf resolution)) [])).map
          (fun b => b.time)).Nodup :=
      (((List.perm_insertionSort barLE _).map (fun b => b.time)).nodup_iff).mpr hSnodup
    exact pairwise_timeLt_of_barLE_ne hle (List.pairwise_map.mp hnd)
  · have hts_lt : (List.insertionSort (fun a b : Int => a ≤ b)
        (rawBars.map (fun b => bucketTimeOf (intervalSecondsOf resolution) b.time)).dedup).Pairwise
          (fun a b : Int => a < b) :=
      pairwise_int_lt_of_le_nodup (List.sorted_insertionSort _ _)
        (hts_perm.nodup_iff.mpr hSnodup)
    refine pairwise_timeLt_filterMap hts_lt ?_
    intro t a ha
    rw [hfun t] at ha
    simpa using List.find?_some ha

theorem aggregateBars_idempotent_witness :
    strictlyAscTimes [wBar3600, wBar7200] = true ∧
      (∀ b ∈ [wBar3600, wBar7200], intervalSecondsOf "60" ∣ b.time) ∧
      aggregateBars [wBar3600, wBar7200] "60" = [wBar3600, wBar7200] :=
  ⟨by decide, by decide,
    aggregateBars_idempotent_at_native_resolution _ _ (by decide) (by decide)⟩
